import Mathlib

/-!
Shallow embedding of the `data-wizard-amazon` repository's service layer:
the Local Store (`src/services/db-service.ts`) and the Domain Service
(`src/services/amazon-service.ts`).  Asynchronous methods are modelled as
pure state-passing functions; the browser's IndexedDB object stores are
modelled as lists of records with explicit upsert-by-key semantics;
JavaScript `Record<string, T>` objects are modelled as association lists
with insert-or-update semantics that preserve key insertion order.
-/

namespace DataWizard

/-- Credentials record from `types/amazon-api` (`{clientId, clientSecret,
refreshToken}`, all strings). -/
structure AmazonCredentials where
  clientId : String
  clientSecret : String
  refreshToken : String
deriving DecidableEq

/-- Endpoint descriptor: static catalog entry.  Only the fields that the
service logic observes (`id`, `name`) are modelled; `requiresParams` /
`defaultParams` are passed to the mocked fetch and never influence any
behaviour the claims mention. -/
structure ApiEndpoint where
  id : String
  name : String
deriving DecidableEq

/-- Response record as produced by the service (`ApiResponse` in
`types/amazon-api`): endpoint id, opaque payload (modelled as an optional
string, `none` standing for JavaScript `null`), capture timestamp,
success flag and optional error message. -/
structure ApiResponse where
  endpointId : String
  data : Option String
  timestamp : Nat
  success : Bool
  error : Option String
deriving DecidableEq

/-- Stored response: `ApiResponse & \x7b id: string \x7d` — what
`db-service.ts` keeps in the `responses` object store (keyPath `id`). -/
structure StoredResponse where
  endpointId : String
  data : Option String
  timestamp : Nat
  success : Bool
  error : Option String
  id : String
deriving DecidableEq

/-- Historical snapshot record (`HistoricalSnapshot`): generated id,
creation date, list of response-record ids. -/
structure HistoricalSnapshot where
  id : String
  date : Nat
  responseIds : List String
deriving DecidableEq

/-- The storage key that `saveResponse` assigns:
`` `$\x7bresponse.endpointId\x7d-$\x7bresponse.timestamp\x7d` ``. -/
def respKey (endpointId : String) (timestamp : Nat) : String :=
  endpointId ++ "-" ++ toString timestamp

/-- The stored form of a response: the record itself plus the assigned
`id` field (`db.put('responses', \x7b...response, id: responseId\x7d)`). -/
def storedOf (r : ApiResponse) : StoredResponse :=
  { endpointId := r.endpointId, data := r.data, timestamp := r.timestamp,
    success := r.success, error := r.error,
    id := respKey r.endpointId r.timestamp }

/-! ### JavaScript object (`Record<string, T>`) model

An association list whose keys are unique by construction: assigning to
an existing key updates it in place, assigning a fresh key appends it —
matching JavaScript property insertion order. -/

/-- Read a key of a JS-object model (`obj[k]`; `undefined` ↦ `none`). -/
def recGet {β : Type} : List (String × β) → String → Option β
  | [], _ => none
  | p :: t, k => if p.1 == k then some p.2 else recGet t k

/-- Write a key of a JS-object model (`obj[k] = v`). -/
def recSet {β : Type} : List (String × β) → String → β → List (String × β)
  | [], k, v => [(k, v)]
  | p :: t, k, v => if p.1 == k then (k, v) :: t else p :: recSet t k v

theorem recGet_recSet_self {β : Type} (m : List (String × β)) (k : String) (v : β) :
    recGet (recSet m k v) k = some v := by
  induction m with
  | nil => simp [recGet, recSet]
  | cons p t ih =>
    obtain ⟨p1, p2⟩ := p
    by_cases hp : p1 = k
    · simp [recGet, recSet, hp]
    · simp [recGet, recSet, hp, ih]

theorem recGet_recSet_ne {β : Type} (m : List (String × β)) (k k' : String) (v : β)
    (h : k' ≠ k) : recGet (recSet m k v) k' = recGet m k' := by
  have hkk : ¬(k = k') := fun hc => h hc.symm
  induction m with
  | nil => simp [recGet, recSet, hkk]
  | cons p t ih =>
    obtain ⟨p1, p2⟩ := p
    by_cases hp : p1 = k
    · subst hp
      simp [recGet, recSet, hkk]
    · by_cases hq : p1 = k' <;> simp [recGet, recSet, hp, hq, h, ih]

theorem recSet_keys_fresh {β : Type} (m : List (String × β)) (k : String) (v : β)
    (h : recGet m k = none) :
    (recSet m k v).map Prod.fst = m.map Prod.fst ++ [k] := by
  induction m with
  | nil => simp [recSet]
  | cons p t ih =>
    obtain ⟨p1, p2⟩ := p
    by_cases hp : p1 = k
    · simp [recGet, hp] at h
    · simp only [recGet, beq_iff_eq, hp, ite_false] at h
      simp [recSet, hp, ih h]

theorem recSet_keys_present {β : Type} (m : List (String × β)) (k : String) (v w : β)
    (h : recGet m k = some w) :
    (recSet m k v).map Prod.fst = m.map Prod.fst := by
  induction m with
  | nil => simp [recGet] at h
  | cons p t ih =>
    obtain ⟨p1, p2⟩ := p
    by_cases hp : p1 = k
    · simp [recSet, hp]
    · simp only [recGet, beq_iff_eq, hp, ite_false] at h
      simp [recSet, hp, ih h]

theorem recSet_length_fresh {β : Type} (m : List (String × β)) (k : String) (v : β)
    (h : recGet m k = none) : (recSet m k v).length = m.length + 1 := by
  have hk := congrArg List.length (recSet_keys_fresh m k v h)
  simpa using hk

theorem recGet_mem {β : Type} (m : List (String × β)) (k : String) (v : β)
    (h : recGet m k = some v) : (k, v) ∈ m := by
  induction m with
  | nil => simp [recGet] at h
  | cons p t ih =>
    obtain ⟨p1, p2⟩ := p
    by_cases hp : p1 = k
    · subst hp
      simp only [recGet, beq_self_eq_true, if_pos, Option.some.injEq] at h
      subst h
      exact List.mem_cons_self _ _
    · simp only [recGet, beq_iff_eq, hp, ite_false] at h
      exact List.mem_cons_of_mem _ (ih h)

theorem mem_recGet {β : Type} (m : List (String × β)) (k : String) (v : β)
    (hn : (m.map Prod.fst).Nodup) (h : (k, v) ∈ m) : recGet m k = some v := by
  induction m with
  | nil => simp at h
  | cons p t ih =>
    simp only [List.map_cons, List.nodup_cons] at hn
    rcases List.mem_cons.mp h with h | h
    · subst h
      simp [recGet]
    · have hk : p.1 ≠ k := by
        intro hc
        exact hn.1 (hc ▸ (List.mem_map.mpr ⟨(k, v), h, rfl⟩))
      simp only [recGet, beq_iff_eq, hk, ite_false]
      exact ih hn.2 h

theorem recGet_isSome_iff {β : Type} (m : List (String × β)) (k : String) :
    (∃ v, recGet m k = some v) ↔ k ∈ m.map Prod.fst := by
  induction m with
  | nil => simp [recGet]
  | cons p t ih =>
    obtain ⟨p1, p2⟩ := p
    by_cases hp : p1 = k
    · subst hp
      simp [recGet]
    · rw [List.map_cons]
      simp only [recGet, beq_iff_eq, hp, ite_false, List.mem_cons]
      rw [ih]
      constructor
      · exact Or.inr
      · rintro (hc | hm)
        · exact absurd hc.symm hp
        · exact hm

/-! ### The `responses` object store

`db.put('responses', v)` with `keyPath: 'id'` overwrites the record whose
key equals `v.id` (keys are unique in the store) or inserts `v`. -/

/-- Upsert into the `responses` store, keyed by the `id` field. -/
def putById : List StoredResponse → StoredResponse → List StoredResponse
  | [], v => [v]
  | x :: t, v => if x.id == v.id then v :: t else x :: putById t v

/-- `saveResponse` from `db-service.ts`: assign the key
`endpointId-timestamp` and upsert. -/
def saveResponse (s : List StoredResponse) (r : ApiResponse) : List StoredResponse :=
  putById s (storedOf r)

/-- Well-formedness of the `responses` store: keys are unique (IndexedDB
guarantees this) and every record carries the key `saveResponse` computed
from its own fields.  Every store reachable through `saveResponse` from
the empty store satisfies it. -/
def WF (s : List StoredResponse) : Prop :=
  (s.map StoredResponse.id).Nodup ∧
    ∀ r ∈ s, r.id = respKey r.endpointId r.timestamp

instance : DecidablePred WF := fun s =>
  inferInstanceAs (Decidable ((s.map StoredResponse.id).Nodup ∧
    ∀ r ∈ s, r.id = respKey r.endpointId r.timestamp))

theorem mem_putById_self (s : List StoredResponse) (v : StoredResponse) :
    v ∈ putById s v := by
  induction s with
  | nil => simp [putById]
  | cons x t ih =>
    by_cases hx : x.id = v.id
    · simp [putById, hx]
    · simp only [putById, beq_iff_eq, hx, ite_false]
      exact List.mem_cons_of_mem _ ih

theorem mem_putById (s : List StoredResponse) (v x : StoredResponse)
    (h : x ∈ putById s v) : x = v ∨ x ∈ s := by
  induction s with
  | nil =>
    simp only [putById, List.mem_singleton] at h
    exact Or.inl h
  | cons y t ih =>
    by_cases hy : y.id = v.id
    · simp only [putById, beq_iff_eq, hy, if_pos, List.mem_cons] at h
      rcases h with h | h
      · exact Or.inl h
      · exact Or.inr (List.mem_cons_of_mem _ h)
    · simp only [putById, beq_iff_eq, hy, ite_false, List.mem_cons] at h
      rcases h with h | h
      · exact Or.inr (List.mem_cons.mpr (Or.inl h))
      · rcases ih h with h1 | h1
        · exact Or.inl h1
        · exact Or.inr (List.mem_cons_of_mem _ h1)

theorem ids_putById (s : List StoredResponse) (v : StoredResponse) :
    (putById s v).map StoredResponse.id =
      if v.id ∈ s.map StoredResponse.id then s.map StoredResponse.id
      else s.map StoredResponse.id ++ [v.id] := by
  induction s with
  | nil => simp [putById]
  | cons y t ih =>
    by_cases hy : y.id = v.id
    · simp [putById, hy]
    · have hne : ¬(v.id = y.id) := fun hc => hy hc.symm
      simp only [putById, beq_iff_eq, hy, ite_false, List.map_cons, ih,
        List.mem_cons, hne, false_or]
      by_cases hm : v.id ∈ t.map StoredResponse.id <;> simp [hm]

theorem WF_putById (s : List StoredResponse) (v : StoredResponse) (hWF : WF s)
    (hv : v.id = respKey v.endpointId v.timestamp) : WF (putById s v) := by
  obtain ⟨hnd, hkey⟩ := hWF
  constructor
  · rw [ids_putById]
    by_cases hm : v.id ∈ s.map StoredResponse.id
    · simpa [hm] using hnd
    · simp only [hm, ite_false]
      rw [List.nodup_append]
      exact ⟨hnd, List.nodup_singleton _, by simpa using fun hc => hm hc⟩
  · intro r hr
    rcases mem_putById s v r hr with h | h
    · subst h; exact hv
    · exact hkey r h

theorem putById_idem (s : List StoredResponse) (v : StoredResponse) :
    putById (putById s v) v = putById s v := by
  induction s with
  | nil => simp [putById]
  | cons y t ih =>
    by_cases hy : y.id = v.id
    · simp [putById, hy]
    · simp [putById, hy, ih]

theorem WF_inj (s : List StoredResponse) (hWF : WF s) (r r' : StoredResponse)
    (hr : r ∈ s) (hr' : r' ∈ s) (hid : r.id = r'.id) : r = r' :=
  List.inj_on_of_nodup_map hWF.1 hr hr' hid

/-- Two distinct records of a well-formed store for the same endpoint have
distinct timestamps (their keys would otherwise coincide). -/
theorem WF_eq_of_endpoint_timestamp (s : List StoredResponse) (hWF : WF s)
    (r r' : StoredResponse) (hr : r ∈ s) (hr' : r' ∈ s)
    (he : r.endpointId = r'.endpointId) (ht : r.timestamp = r'.timestamp) :
    r = r' := by
  apply WF_inj s hWF r r' hr hr'
  rw [hWF.2 r hr, hWF.2 r' hr', he, ht]

/-! ### Latest response per endpoint -/

/-- `getResponsesByEndpoint`: all stored records of one endpoint (the
`by-endpoint` index). -/
def getResponsesByEndpoint (s : List StoredResponse) (endpointId : String) :
    List StoredResponse :=
  s.filter (fun r => r.endpointId == endpointId)

/-- Stable insertion used to model
`responses.sort((a, b) => b.timestamp - a.timestamp)` (descending). -/
def insertDesc (r : StoredResponse) : List StoredResponse → List StoredResponse
  | [] => [r]
  | h :: t => if h.timestamp < r.timestamp then r :: h :: t else h :: insertDesc r t

/-- Stable sort by timestamp, descending. -/
def sortByTimestampDesc (l : List StoredResponse) : List StoredResponse :=
  l.foldr insertDesc []

/-- `getLatestResponseByEndpoint` from `db-service.ts`: collect the
endpoint's records, sort by timestamp descending, return the first
(or `undefined` when there is none). -/
def getLatestResponseByEndpoint (s : List StoredResponse) (endpointId : String) :
    Option StoredResponse :=
  (sortByTimestampDesc (getResponsesByEndpoint s endpointId)).head?

theorem mem_insertDesc (r x : StoredResponse) (l : List StoredResponse) :
    x ∈ insertDesc r l ↔ x = r ∨ x ∈ l := by
  induction l with
  | nil => simp [insertDesc]
  | cons h t ih =>
    by_cases hc : h.timestamp < r.timestamp
    · simp [insertDesc, hc]
    · simp only [insertDesc, hc, ite_false, List.mem_cons, ih]
      tauto

theorem mem_sortByTimestampDesc (x : StoredResponse) (l : List StoredResponse) :
    x ∈ sortByTimestampDesc l ↔ x ∈ l := by
  induction l with
  | nil => simp [sortByTimestampDesc]
  | cons h t ih =>
    simp only [sortByTimestampDesc, List.foldr_cons] at ih ⊢
    rw [mem_insertDesc, ih, List.mem_cons]

theorem sorted_insertDesc (r : StoredResponse) (l : List StoredResponse)
    (h : l.Pairwise (fun a b => b.timestamp ≤ a.timestamp)) :
    (insertDesc r l).Pairwise (fun a b => b.timestamp ≤ a.timestamp) := by
  induction l with
  | nil => simp [insertDesc]
  | cons x t ih =>
    rcases List.pairwise_cons.mp h with ⟨hx, ht⟩
    by_cases hc : x.timestamp < r.timestamp
    · simp only [insertDesc, hc, if_pos]
      refine List.pairwise_cons.mpr ⟨?_, h⟩
      intro b hb
      rcases List.mem_cons.mp hb with hb | hb
      · exact hb ▸ Nat.le_of_lt hc
      · exact Nat.le_trans (hx b hb) (Nat.le_of_lt hc)
    · simp only [insertDesc, hc, ite_false]
      refine List.pairwise_cons.mpr ⟨?_, ih ht⟩
      intro b hb
      rcases (mem_insertDesc r b t).mp hb with hb | hb
      · exact hb ▸ Nat.le_of_not_lt hc
      · exact hx b hb

theorem sorted_sortByTimestampDesc (l : List StoredResponse) :
    (sortByTimestampDesc l).Pairwise (fun a b => b.timestamp ≤ a.timestamp) := by
  induction l with
  | nil => simp [sortByTimestampDesc]
  | cons h t ih =>
    simp only [sortByTimestampDesc, List.foldr_cons] at ih ⊢
    exact sorted_insertDesc h _ ih

theorem head_max_sortByTimestampDesc (l : List StoredResponse) (m : StoredResponse)
    (h : (sortByTimestampDesc l).head? = some m) :
    m ∈ l ∧ ∀ x ∈ l, x.timestamp ≤ m.timestamp := by
  rcases hl : sortByTimestampDesc l with _ | ⟨h0, t0⟩
  · rw [hl] at h; simp at h
  · rw [hl] at h
    simp only [List.head?_cons, Option.some.injEq] at h
    subst h
    constructor
    · exact (mem_sortByTimestampDesc h0 l).mp (hl ▸ List.mem_cons_self _ _)
    · intro x hx
      have hx' := (mem_sortByTimestampDesc x l).mpr hx
      rw [hl] at hx'
      rcases List.mem_cons.mp hx' with hx' | hx'
      · exact hx' ▸ Nat.le_refl _
      · have hs := sorted_sortByTimestampDesc l
        rw [hl] at hs
        exact (List.pairwise_cons.mp hs).1 x hx'

/-- The core of claims about `getLatestResponseByEndpoint`: on a
well-formed store it returns exactly the maximal-timestamp record of the
endpoint. -/
theorem getLatestResponseByEndpoint_eq (s : List StoredResponse) (hWF : WF s)
    (e : String) (r : StoredResponse) (hr : r ∈ s) (he : r.endpointId = e)
    (hmax : ∀ x ∈ s, x.endpointId = e → x.timestamp ≤ r.timestamp) :
    getLatestResponseByEndpoint s e = some r := by
  have hrf : r ∈ getResponsesByEndpoint s e := by
    simp [getResponsesByEndpoint, List.mem_filter, hr, he]
  cases hh : (sortByTimestampDesc (getResponsesByEndpoint s e)).head? with
  | none =>
    exfalso
    have := (mem_sortByTimestampDesc r (getResponsesByEndpoint s e)).mpr hrf
    rcases hl : sortByTimestampDesc (getResponsesByEndpoint s e) with _ | ⟨h0, t0⟩
    · rw [hl] at this; simp at this
    · rw [hl] at hh; simp at hh
  | some m =>
    have hm := head_max_sortByTimestampDesc _ _ hh
    have hm1 : m ∈ s ∧ m.endpointId = e := by
      have := hm.1
      simp only [getResponsesByEndpoint, List.mem_filter, beq_iff_eq] at this
      exact this
    have h1 : m.timestamp ≤ r.timestamp := hmax m hm1.1 hm1.2
    have h2 : r.timestamp ≤ m.timestamp := hm.2 r hrf
    have : m = r := WF_eq_of_endpoint_timestamp s hWF m r hm1.1 hr
      (hm1.2.trans he.symm) (Nat.le_antisymm h1 h2)
    rw [getLatestResponseByEndpoint, hh, this]

theorem getLatestResponseByEndpoint_none (s : List StoredResponse) (e : String)
    (h : ∀ x ∈ s, x.endpointId ≠ e) :
    getLatestResponseByEndpoint s e = none := by
  have hf : getResponsesByEndpoint s e = [] := by
    simp only [getResponsesByEndpoint, List.filter_eq_nil_iff, beq_iff_eq]
    exact h
  rw [getLatestResponseByEndpoint, hf]
  rfl

/-- One step of the grouping loop in `getLatestResponses`: keep the
record unless a strictly newer one arrives for the same endpoint. -/
def updateLatest (m : List (String × StoredResponse)) (r : StoredResponse) :
    List (String × StoredResponse) :=
  match recGet m r.endpointId with
  | none => recSet m r.endpointId r
  | some current =>
    if current.timestamp < r.timestamp then recSet m r.endpointId r else m

/-- `getLatestResponses` from `db-service.ts`: group all stored responses
by `endpointId`, keeping the latest (maximum-timestamp) one of each. -/
def getLatestResponses (s : List StoredResponse) : List (String × StoredResponse) :=
  s.foldl updateLatest []

/-- Invariant carried through the grouping fold: the accumulator maps each
endpoint id seen in the processed prefix `p` to a maximal-timestamp record
of that endpoint from `p`, and to nothing else. -/
structure LatestInv (m : List (String × StoredResponse)) (p : List StoredResponse) :
    Prop where
  nodupKeys : (m.map Prod.fst).Nodup
  keyOf : ∀ k r, recGet m k = some r → r.endpointId = k
  memOf : ∀ k r, recGet m k = some r → r ∈ p
  maxOf : ∀ k r, recGet m k = some r → ∀ x ∈ p, x.endpointId = k →
    x.timestamp ≤ r.timestamp
  keysIff : ∀ k, (∃ r, recGet m k = some r) ↔ ∃ x ∈ p, x.endpointId = k

theorem LatestInv_nil : LatestInv [] [] where
  nodupKeys := List.nodup_nil
  keyOf := fun k r h => by simp [recGet] at h
  memOf := fun k r h => by simp [recGet] at h
  maxOf := fun k r h => by simp [recGet] at h
  keysIff := fun k => by simp [recGet]

theorem LatestInv_step (m : List (String × StoredResponse))
    (p : List StoredResponse) (r : StoredResponse) (hInv : LatestInv m p) :
    LatestInv (updateLatest m r) (p ++ [r]) := by
  have hkeys : ∀ v, ((recSet m r.endpointId v).map Prod.fst).Nodup := by
    intro v
    cases hg : recGet m r.endpointId with
    | none =>
      rw [recSet_keys_fresh m _ v hg, List.nodup_append]
      refine ⟨hInv.nodupKeys, List.nodup_singleton _, ?_⟩
      simp only [List.disjoint_singleton]
      intro hc
      obtain ⟨w, hw⟩ := (recGet_isSome_iff m r.endpointId).mpr hc
      rw [hg] at hw
      exact Option.noConfusion hw
    | some w => rw [recSet_keys_present m _ v w hg]; exact hInv.nodupKeys
  unfold updateLatest
  cases hg : recGet m r.endpointId with
  | none =>
    refine ⟨hkeys r, ?_, ?_, ?_, ?_⟩
    · intro k x hx
      by_cases hk : k = r.endpointId
      · subst hk
        rw [recGet_recSet_self] at hx
        cases hx
        rfl
      · rw [recGet_recSet_ne m _ k r hk] at hx
        exact hInv.keyOf k x hx
    · intro k x hx
      by_cases hk : k = r.endpointId
      · subst hk
        rw [recGet_recSet_self] at hx
        cases hx
        simp
      · rw [recGet_recSet_ne m _ k r hk] at hx
        exact List.mem_append_left _ (hInv.memOf k x hx)
    · intro k x hx y hy hye
      by_cases hk : k = r.endpointId
      · subst hk
        rw [recGet_recSet_self] at hx
        cases hx
        rcases List.mem_append.mp hy with hy | hy
        · exfalso
          have : ∃ z, recGet m r.endpointId = some z :=
            (hInv.keysIff r.endpointId).mpr ⟨y, hy, hye⟩
          rw [hg] at this
          exact Option.noConfusion this.choose_spec
        · simp only [List.mem_singleton] at hy
          exact hy ▸ Nat.le_refl _
      · rw [recGet_recSet_ne m _ k r hk] at hx
        rcases List.mem_append.mp hy with hy | hy
        · exact hInv.maxOf k x hx y hy hye
        · simp only [List.mem_singleton] at hy
          subst hy
          exact absurd hye.symm hk
    · intro k
      by_cases hk : k = r.endpointId
      · subst hk
        constructor
        · intro _
          exact ⟨r, List.mem_append_right _ (List.mem_singleton_self r), rfl⟩
        · intro _
          exact ⟨r, recGet_recSet_self m _ r⟩
      · rw [recGet_recSet_ne m _ k r hk]
        rw [hInv.keysIff k]
        constructor
        · rintro ⟨x, hx, hxe⟩
          exact ⟨x, List.mem_append_left _ hx, hxe⟩
        · rintro ⟨x, hx, hxe⟩
          rcases List.mem_append.mp hx with hx | hx
          · exact ⟨x, hx, hxe⟩
          · simp only [List.mem_singleton] at hx
            subst hx
            exact absurd hxe.symm hk
  | some current =>
    by_cases hlt : current.timestamp < r.timestamp
    · simp only [hlt, if_pos]
      refine ⟨hkeys r, ?_, ?_, ?_, ?_⟩
      · intro k x hx
        by_cases hk : k = r.endpointId
        · subst hk
          rw [recGet_recSet_self] at hx
          cases hx
          rfl
        · rw [recGet_recSet_ne m _ k r hk] at hx
          exact hInv.keyOf k x hx
      · intro k x hx
        by_cases hk : k = r.endpointId
        · subst hk
          rw [recGet_recSet_self] at hx
          cases hx
          simp
        · rw [recGet_recSet_ne m _ k r hk] at hx
          exact List.mem_append_left _ (hInv.memOf k x hx)
      · intro k x hx y hy hye
        by_cases hk : k = r.endpointId
        · subst hk
          rw [recGet_recSet_self] at hx
          cases hx
          rcases List.mem_append.mp hy with hy | hy
          · exact Nat.le_trans (hInv.maxOf _ current hg y hy hye) (Nat.le_of_lt hlt)
          · simp only [List.mem_singleton] at hy
            exact hy ▸ Nat.le_refl _
        · rw [recGet_recSet_ne m _ k r hk] at hx
          rcases List.mem_append.mp hy with hy | hy
          · exact hInv.maxOf k x hx y hy hye
          · simp only [List.mem_singleton] at hy
            subst hy
            exact absurd hye.symm hk
      · intro k
        by_cases hk : k = r.endpointId
        · subst hk
          constructor
          · intro _
            exact ⟨r, List.mem_append_right _ (List.mem_singleton_self r), rfl⟩
          · intro _
            exact ⟨r, recGet_recSet_self m _ r⟩
        · rw [recGet_recSet_ne m _ k r hk]
          rw [hInv.keysIff k]
          constructor
          · rintro ⟨x, hx, hxe⟩
            exact ⟨x, List.mem_append_left _ hx, hxe⟩
          · rintro ⟨x, hx, hxe⟩
            rcases List.mem_append.mp hx with hx | hx
            · exact ⟨x, hx, hxe⟩
            · simp only [List.mem_singleton] at hx
              subst hx
              exact absurd hxe.symm hk
    · simp only [hlt, ite_false]
      refine ⟨hInv.nodupKeys, hInv.keyOf, ?_, ?_, ?_⟩
      · intro k x hx
        exact List.mem_append_left _ (hInv.memOf k x hx)
      · intro k x hx y hy hye
        rcases List.mem_append.mp hy with hy | hy
        · exact hInv.maxOf k x hx y hy hye
        · simp only [List.mem_singleton] at hy
          subst hy
          rw [hye, hx] at hg
          have hxc := Option.some.inj hg
          rw [← hxc] at hlt
          exact Nat.le_of_not_lt hlt
      · intro k
        rw [hInv.keysIff k]
        constructor
        · rintro ⟨x, hx, hxe⟩
          exact ⟨x, List.mem_append_left _ hx, hxe⟩
        · rintro ⟨x, hx, hxe⟩
          rcases List.mem_append.mp hx with hx | hx
          · exact ⟨x, hx, hxe⟩
          · simp only [List.mem_singleton] at hx
            subst hx
            rw [hxe] at hg
            exact ⟨current, hInv.memOf k current hg, hInv.keyOf k current hg⟩

theorem LatestInv_foldl (l : List StoredResponse)
    (m : List (String × StoredResponse)) (p : List StoredResponse)
    (hInv : LatestInv m p) : LatestInv (l.foldl updateLatest m) (p ++ l) := by
  induction l generalizing m p with
  | nil => simpa using hInv
  | cons r t ih =>
    have h1 := LatestInv_step m p r hInv
    have h2 := ih (updateLatest m r) (p ++ [r]) h1
    simpa using h2

theorem LatestInv_getLatestResponses (s : List StoredResponse) :
    LatestInv (getLatestResponses s) s := by
  have := LatestInv_foldl s [] [] LatestInv_nil
  simpa [getLatestResponses] using this

theorem getLatestResponses_eq (s : List StoredResponse) (hWF : WF s)
    (e : String) (r : StoredResponse) (hr : r ∈ s) (he : r.endpointId = e)
    (hmax : ∀ x ∈ s, x.endpointId = e → x.timestamp ≤ r.timestamp) :
    recGet (getLatestResponses s) e = some r := by
  have hInv := LatestInv_getLatestResponses s
  obtain ⟨r0, hr0⟩ := (hInv.keysIff e).mpr ⟨r, hr, he⟩
  have h1 : r0 ∈ s := hInv.memOf e r0 hr0
  have h2 : r0.endpointId = e := hInv.keyOf e r0 hr0
  have h3 : r.timestamp ≤ r0.timestamp := hInv.maxOf e r0 hr0 r hr he
  have h4 : r0.timestamp ≤ r.timestamp := hmax r0 h1 h2
  have : r0 = r := WF_eq_of_endpoint_timestamp s hWF r0 r h1 hr
    (h2.trans he.symm) (Nat.le_antisymm h4 h3)
  rw [hr0, this]

theorem getLatestResponses_entry (s : List StoredResponse)
    (k : String) (r : StoredResponse) (h : (k, r) ∈ getLatestResponses s) :
    r ∈ s ∧ r.endpointId = k ∧
      ∀ x ∈ s, x.endpointId = k → x.timestamp ≤ r.timestamp := by
  have hInv := LatestInv_getLatestResponses s
  have hg := mem_recGet _ k r hInv.nodupKeys h
  exact ⟨hInv.memOf k r hg, hInv.keyOf k r hg, hInv.maxOf k r hg⟩

theorem getLatestResponses_length (s : List StoredResponse) :
    (getLatestResponses s).length = (s.map StoredResponse.endpointId).dedup.length := by
  have hInv := LatestInv_getLatestResponses s
  have hmem : ∀ k, k ∈ (getLatestResponses s).map Prod.fst ↔
      k ∈ (s.map StoredResponse.endpointId).dedup := by
    intro k
    rw [← recGet_isSome_iff, hInv.keysIff k, List.mem_dedup, List.mem_map]
  have hnd1 : ((getLatestResponses s).map Prod.fst).Nodup := hInv.nodupKeys
  have hnd2 : ((s.map StoredResponse.endpointId).dedup).Nodup := List.nodup_dedup _
  have hfs : ((getLatestResponses s).map Prod.fst).toFinset =
      ((s.map StoredResponse.endpointId).dedup).toFinset := by
    ext k
    simpa using hmem k
  have hperm := List.perm_of_nodup_nodup_toFinset_eq hnd1 hnd2 hfs
  have := hperm.length_eq
  simpa using this

theorem getLatestResponses_none (s : List StoredResponse) (e : String)
    (h : ∀ x ∈ s, x.endpointId ≠ e) :
    recGet (getLatestResponses s) e = none := by
  have hInv := LatestInv_getLatestResponses s
  cases hg : recGet (getLatestResponses s) e with
  | none => rfl
  | some r =>
    exfalso
    obtain ⟨x, hx, hxe⟩ := (hInv.keysIff e).mp ⟨r, hg⟩
    exact h x hx hxe

/-- C3. For every well-formed store (any store produced by a sequence of
`saveResponse` calls) and endpoint id `e`: when `e` has no stored record
both lookups are empty, and when `r` is a stored record for `e` of
maximal timestamp, both `getLatestResponseByEndpoint e` and the entry for
`e` in `getLatestResponses()` are exactly `r`. -/
theorem C3_latest_response_is_max (s : List StoredResponse) (hWF : WF s) (e : String) :
    ((∀ x ∈ s, x.endpointId ≠ e) → getLatestResponseByEndpoint s e = none) ∧
    ∀ r ∈ s, r.endpointId = e →
      (∀ x ∈ s, x.endpointId = e → x.timestamp ≤ r.timestamp) →
      getLatestResponseByEndpoint s e = some r ∧
        recGet (getLatestResponses s) e = some r := by
  constructor
  · exact getLatestResponseByEndpoint_none s e
  · intro r hr he hmax
    exact ⟨getLatestResponseByEndpoint_eq s hWF e r hr he hmax,
      getLatestResponses_eq s hWF e r hr he hmax⟩

/-- Concrete store used by several witnesses: two records for endpoint
`"orders"` (timestamps 1 and 5) and one for `"inventory"`. -/
def wStore : List StoredResponse :=
  [⟨"orders", some "d1", 1, true, none, "orders-1"⟩,
   ⟨"orders", some "d2", 5, true, none, "orders-5"⟩,
   ⟨"inventory", some "d3", 3, true, none, "inventory-3"⟩]

/-- Witness for C3 at the concrete store `wStore`. -/
theorem C3_witness :
    getLatestResponseByEndpoint wStore "orders" =
        some ⟨"orders", some "d2", 5, true, none, "orders-5"⟩ ∧
      recGet (getLatestResponses wStore) "orders" =
        some ⟨"orders", some "d2", 5, true, none, "orders-5"⟩ :=
  (C3_latest_response_is_max wStore (by decide) "orders").2
    ⟨"orders", some "d2", 5, true, none, "orders-5"⟩
    (by decide) (by decide) (by decide)

/-! ### Full database state and the remaining Local Store operations -/

/-- The four logical tables of the `amazon-sp-api` database. -/
structure DB where
  responses : List StoredResponse
  credentials : Option AmazonCredentials
  historical : List HistoricalSnapshot
  lastLogin : Option Nat
deriving DecidableEq

/-- Upsert into the `historical` store, keyed by the `id` field. -/
def putSnapshot : List HistoricalSnapshot → HistoricalSnapshot → List HistoricalSnapshot
  | [], v => [v]
  | x :: t, v => if x.id == v.id then v :: t else x :: putSnapshot t v

/-- `createHistoricalSnapshot`: read latest-per-endpoint, collect the
stored ids, write one new snapshot record stamped with the current time. -/
def createHistoricalSnapshot (db : DB) (now : Nat) : DB × HistoricalSnapshot :=
  let latestResponses := getLatestResponses db.responses
  let responseIds := latestResponses.map (fun p => p.2.id)
  let snapshot : HistoricalSnapshot :=
    { id := "snapshot-" ++ toString now, date := now, responseIds := responseIds }
  ({ db with historical := putSnapshot db.historical snapshot }, snapshot)

/-- `deleteResponsesByEndpoint`: look up the endpoint's records through the
`by-endpoint` index, then delete each one by its key. -/
def deleteResponsesByEndpoint (db : DB) (endpointId : String) : DB :=
  let toDelete := (getResponsesByEndpoint db.responses endpointId).map StoredResponse.id
  { db with responses :=
      db.responses.filter (fun r => !(toDelete.contains r.id)) }

/-- `getSnapshotResponses` loop body: resolve each referenced id, keeping
the ones that still exist, keyed by their `endpointId`. -/
def resolveIds (s : List StoredResponse) :
    List String → List (String × StoredResponse) → List (String × StoredResponse)
  | [], m => m
  | rid :: rest, m =>
    match s.find? (fun r => r.id == rid) with
    | some response => resolveIds s rest (recSet m response.endpointId response)
    | none => resolveIds s rest m

/-- `getSnapshotResponses` from `db-service.ts`. -/
def getSnapshotResponses (s : List StoredResponse) (snapshot : HistoricalSnapshot) :
    List (String × StoredResponse) :=
  resolveIds s snapshot.responseIds []

/-- The fixed redaction placeholder used by `exportAllData`. -/
def redactionPlaceholder : String := "********"

/-- Shape of the document `exportAllData` serialises. -/
structure ExportData where
  credentials : Option AmazonCredentials
  responses : List StoredResponse
  snapshots : List HistoricalSnapshot
  lastLogin : Option Nat
deriving DecidableEq

/-- `exportAllData` from `db-service.ts`: dump all four tables, replacing
the secret credential fields by the fixed placeholder. -/
def exportAllData (db : DB) : ExportData :=
  { credentials := db.credentials.map (fun c =>
      { clientId := c.clientId,
        clientSecret := redactionPlaceholder,
        refreshToken := redactionPlaceholder }),
    responses := db.responses,
    snapshots := db.historical,
    lastLogin := db.lastLogin }

/-! ### Domain Service (`amazon-service.ts`) -/

/-- `validateCredentials`: after the simulated delay, accept exactly when
all three fields are non-empty
(`!!(credentials.clientId && credentials.clientSecret && credentials.refreshToken)`;
the empty string is falsy in JavaScript). -/
def validateCredentials (credentials : AmazonCredentials) : Bool :=
  !(credentials.clientId == "") && !(credentials.clientSecret == "") &&
    !(credentials.refreshToken == "")

/-- In-memory session state of the service relevant to credentials. -/
structure ServiceState where
  credentials : Option AmazonCredentials
deriving DecidableEq

/-- `setCredentials`: validate; on success persist through the Local Store
and update the in-memory copy, returning `true`; otherwise return `false`
touching nothing.  Errors are caught and reported as `false`. -/
def setCredentials (db : DB) (st : ServiceState) (credentials : AmazonCredentials) :
    Bool × DB × ServiceState :=
  if validateCredentials credentials then
    (true, { db with credentials := some credentials }, { credentials := some credentials })
  else
    (false, db, st)

/-- `hasCredentials`: whether credentials are loaded in memory. -/
def hasCredentials (st : ServiceState) : Bool :=
  st.credentials.isSome

/-- C2. Setting credentials with all three fields non-empty returns `true`,
persists them, and makes `hasCredentials()` true; setting credentials with
any empty field returns `false` (no exception is modelled: the function is
total) and leaves the persisted record and the in-memory credentials
untouched. -/
theorem C2_set_credentials (db : DB) (st : ServiceState) (c : AmazonCredentials) :
    (c.clientId ≠ "" → c.clientSecret ≠ "" → c.refreshToken ≠ "" →
      (setCredentials db st c).1 = true ∧
      (setCredentials db st c).2.1.credentials = some c ∧
      hasCredentials (setCredentials db st c).2.2 = true) ∧
    ((c.clientId = "" ∨ c.clientSecret = "" ∨ c.refreshToken = "") →
      (setCredentials db st c).1 = false ∧
      (setCredentials db st c).2.1 = db ∧
      (setCredentials db st c).2.2 = st) := by
  constructor
  · intro h1 h2 h3
    have hv : validateCredentials c = true := by
      simp [validateCredentials, h1, h2, h3]
    simp [setCredentials, hv, hasCredentials]
  · intro h
    have hv : validateCredentials c = false := by
      rcases h with h | h | h <;> simp [validateCredentials, h]
    simp [setCredentials, hv]

/-- Witness for C2: both branches exercised at concrete credentials. -/
theorem C2_witness :
    ((setCredentials ⟨[], none, [], none⟩ ⟨none⟩ ⟨"id", "sec", "tok"⟩).1 = true ∧
      (setCredentials ⟨[], none, [], none⟩ ⟨none⟩
        ⟨"id", "sec", "tok"⟩).2.1.credentials = some ⟨"id", "sec", "tok"⟩ ∧
      hasCredentials (setCredentials ⟨[], none, [], none⟩ ⟨none⟩
        ⟨"id", "sec", "tok"⟩).2.2 = true) ∧
    ((setCredentials ⟨[], some ⟨"a", "b", "c"⟩, [], none⟩ ⟨some ⟨"a", "b", "c"⟩⟩
        ⟨"id", "", "tok"⟩).1 = false ∧
      (setCredentials ⟨[], some ⟨"a", "b", "c"⟩, [], none⟩ ⟨some ⟨"a", "b", "c"⟩⟩
        ⟨"id", "", "tok"⟩).2.1 = ⟨[], some ⟨"a", "b", "c"⟩, [], none⟩ ∧
      (setCredentials ⟨[], some ⟨"a", "b", "c"⟩, [], none⟩ ⟨some ⟨"a", "b", "c"⟩⟩
        ⟨"id", "", "tok"⟩).2.2 = ⟨some ⟨"a", "b", "c"⟩⟩) :=
  ⟨(C2_set_credentials ⟨[], none, [], none⟩ ⟨none⟩ ⟨"id", "sec", "tok"⟩).1
      (by decide) (by decide) (by decide),
    (C2_set_credentials ⟨[], some ⟨"a", "b", "c"⟩, [], none⟩ ⟨some ⟨"a", "b", "c"⟩⟩
      ⟨"id", "", "tok"⟩).2 (Or.inr (Or.inl rfl))⟩

/-- C4. The export redacts both secret fields to the fixed placeholder
whenever a credentials record exists, and consequently two databases that
differ only in `clientSecret` and `refreshToken` export identically (the
secrets never influence the export). -/
theorem C4_export_redacts_secrets :
    (∀ (db : DB) (c : AmazonCredentials),
      (exportAllData { db with credentials := some c }).credentials =
        some ⟨c.clientId, redactionPlaceholder, redactionPlaceholder⟩) ∧
    ∀ (db : DB) (i s t s' t' : String),
      exportAllData { db with credentials := some ⟨i, s, t⟩ } =
        exportAllData { db with credentials := some ⟨i, s', t'⟩ } := by
  constructor
  · intro db c
    simp [exportAllData]
  · intro db i s t s' t'
    simp [exportAllData]

theorem mem_putSnapshot_self (l : List HistoricalSnapshot) (v : HistoricalSnapshot) :
    v ∈ putSnapshot l v := by
  induction l with
  | nil => simp [putSnapshot]
  | cons x t ih =>
    by_cases hx : x.id = v.id
    · simp [putSnapshot, hx]
    · simp only [putSnapshot, beq_iff_eq, hx, ite_false]
      exact List.mem_cons_of_mem _ ih

/-- C5. A snapshot taken over a store holding records for `N` distinct
endpoint ids records exactly `N` response ids (one per endpoint), each
being the stored id of a maximal-timestamp record of its endpoint, and
the snapshot record itself is written to the `historical` table. -/
theorem C5_snapshot_one_id_per_endpoint (db : DB) (now : Nat) :
    (createHistoricalSnapshot db now).2.responseIds.length =
      (db.responses.map StoredResponse.endpointId).dedup.length ∧
    (createHistoricalSnapshot db now).2 ∈ (createHistoricalSnapshot db now).1.historical ∧
    ∀ i ∈ (createHistoricalSnapshot db now).2.responseIds,
      ∃ r ∈ db.responses, r.id = i ∧
        ∀ x ∈ db.responses, x.endpointId = r.endpointId →
          x.timestamp ≤ r.timestamp := by
  refine ⟨?_, ?_, ?_⟩
  · simp only [createHistoricalSnapshot, List.length_map]
    exact getLatestResponses_length db.responses
  · simp only [createHistoricalSnapshot]
    exact mem_putSnapshot_self _ _
  · intro i hi
    simp only [createHistoricalSnapshot, List.mem_map] at hi
    obtain ⟨⟨k, r⟩, hmem, hid⟩ := hi
    obtain ⟨h1, h2, h3⟩ := getLatestResponses_entry db.responses k r hmem
    exact ⟨r, h1, hid, by rw [h2]; exact h3⟩

/-- Witness for C5 at the concrete store `wStore` (two distinct
endpoints). -/
theorem C5_witness :
    (createHistoricalSnapshot ⟨wStore, none, [], none⟩ 9).2.responseIds.length =
      ((⟨wStore, none, [], none⟩ : DB).responses.map
        StoredResponse.endpointId).dedup.length ∧
    (createHistoricalSnapshot ⟨wStore, none, [], none⟩ 9).2 ∈
      (createHistoricalSnapshot ⟨wStore, none, [], none⟩ 9).1.historical ∧
    ∀ i ∈ (createHistoricalSnapshot ⟨wStore, none, [], none⟩ 9).2.responseIds,
      ∃ r ∈ (⟨wStore, none, [], none⟩ : DB).responses, r.id = i ∧
        ∀ x ∈ (⟨wStore, none, [], none⟩ : DB).responses,
          x.endpointId = r.endpointId → x.timestamp ≤ r.timestamp :=
  C5_snapshot_one_id_per_endpoint ⟨wStore, none, [], none⟩ 9

/-- C6. Saving a response whose timestamp is at least that of every stored
record of its endpoint makes `getLatestResponseByEndpoint` return exactly
its stored form (all `ApiResponse` fields preserved, plus the generated
`endpointId-timestamp` key); and an identical second save is a no-op on
the store. -/
theorem C6_save_roundtrip_idempotent (s : List StoredResponse) (hWF : WF s)
    (r : ApiResponse)
    (hmax : ∀ x ∈ s, x.endpointId = r.endpointId → x.timestamp ≤ r.timestamp) :
    getLatestResponseByEndpoint (saveResponse s r) r.endpointId = some (storedOf r) ∧
    saveResponse (saveResponse s r) r = saveResponse s r := by
  constructor
  · have hWF' : WF (saveResponse s r) := WF_putById s (storedOf r) hWF rfl
    apply getLatestResponseByEndpoint_eq (saveResponse s r) hWF' r.endpointId
      (storedOf r) (mem_putById_self s (storedOf r)) rfl
    intro x hx hxe
    rcases mem_putById s (storedOf r) x hx with h | h
    · subst h; exact Nat.le_refl _
    · exact hmax x h hxe
  · exact putById_idem s (storedOf r)

/-- Witness for C6: a fresh maximal-timestamp record over `wStore`. -/
theorem C6_witness :
    getLatestResponseByEndpoint
        (saveResponse wStore ⟨"orders", some "d4", 7, true, none⟩) "orders" =
      some ⟨"orders", some "d4", 7, true, none, "orders-7"⟩ ∧
    saveResponse (saveResponse wStore ⟨"orders", some "d4", 7, true, none⟩)
        ⟨"orders", some "d4", 7, true, none⟩ =
      saveResponse wStore ⟨"orders", some "d4", 7, true, none⟩ := by
  have h := C6_save_roundtrip_idempotent wStore (by decide)
    ⟨"orders", some "d4", 7, true, none⟩ (by decide)
  have hk : storedOf ⟨"orders", some "d4", 7, true, none⟩ =
      ⟨"orders", some "d4", 7, true, none, "orders-7"⟩ := by decide
  exact ⟨hk ▸ h.1, h.2⟩

/-- C9. Deleting an endpoint's responses removes exactly the records of
that endpoint — the surviving list is precisely the original filtered to
the other endpoints, in order and with all fields (keys included)
untouched — and the credentials, historical and last-login tables are not
modified. -/
theorem C9_delete_by_endpoint_frame (db : DB) (hWF : WF db.responses) (e : String) :
    (deleteResponsesByEndpoint db e).responses =
      db.responses.filter (fun r => !(r.endpointId == e)) ∧
    (∀ r ∈ (deleteResponsesByEndpoint db e).responses, r.endpointId ≠ e) ∧
    (deleteResponsesByEndpoint db e).credentials = db.credentials ∧
    (deleteResponsesByEndpoint db e).historical = db.historical ∧
    (deleteResponsesByEndpoint db e).lastLogin = db.lastLogin := by
  have hfilter : (deleteResponsesByEndpoint db e).responses =
      db.responses.filter (fun r => !(r.endpointId == e)) := by
    simp only [deleteResponsesByEndpoint]
    apply List.filter_congr
    intro r hr
    have : ((getResponsesByEndpoint db.responses e).map StoredResponse.id).contains r.id =
        (r.endpointId == e) := by
      by_cases he : r.endpointId = e
      · have : r.id ∈ (getResponsesByEndpoint db.responses e).map StoredResponse.id :=
          List.mem_map.mpr ⟨r, by simp [getResponsesByEndpoint, List.mem_filter, hr, he], rfl⟩
        simp [List.elem_iff, this, he]
      · have : r.id ∉ (getResponsesByEndpoint db.responses e).map StoredResponse.id := by
          intro hc
          obtain ⟨d, hd, hdi⟩ := List.mem_map.mp hc
          simp only [getResponsesByEndpoint, List.mem_filter, beq_iff_eq] at hd
          have : d = r := WF_inj db.responses hWF d r hd.1 hr hdi
          exact he (this ▸ hd.2)
        simp [List.elem_iff, this, he]
    rw [this]
  refine ⟨hfilter, ?_, rfl, rfl, rfl⟩
  intro r hr
  rw [hfilter] at hr
  have := (List.mem_filter.mp hr).2
  simpa using this

/-- Witness for C9 at the concrete store `wStore`. -/
theorem C9_witness :
    (deleteResponsesByEndpoint ⟨wStore, none, [], none⟩ "orders").responses =
      wStore.filter (fun r => !(r.endpointId == "orders")) ∧
    (∀ r ∈ (deleteResponsesByEndpoint ⟨wStore, none, [], none⟩ "orders").responses,
      r.endpointId ≠ "orders") ∧
    (deleteResponsesByEndpoint ⟨wStore, none, [], none⟩ "orders").credentials = none ∧
    (deleteResponsesByEndpoint ⟨wStore, none, [], none⟩ "orders").historical = [] ∧
    (deleteResponsesByEndpoint ⟨wStore, none, [], none⟩ "orders").lastLogin = none :=
  C9_delete_by_endpoint_frame ⟨wStore, none, [], none⟩ (by decide) "orders"

/-! ### Fetching and progress reporting -/

/-- Lifecycle state field of a progress status
(`'idle' | 'running' | 'completed' | 'error'`). -/
inductive ProgressState
  | idle
  | running
  | completed
  | error
deriving DecidableEq

/-- `ProgressStatus` from `types/amazon-api`. -/
structure ProgressStatus where
  currentEndpoint : String
  progress : Nat
  total : Nat
  status : ProgressState
  message : Option String
deriving DecidableEq

/-- The initial progress event of `fetchAllEndpoints`. -/
def startEvent (total : Nat) : ProgressStatus :=
  ⟨"", 0, total, ProgressState.running, some "Starting data extraction..."⟩

/-- The per-endpoint progress event emitted before each fetch. -/
def endpointEvent (name : String) (i total : Nat) : ProgressStatus :=
  ⟨name, i, total, ProgressState.running,
    some ("Fetching data from " ++ name ++ "...")⟩

/-- The final progress event of `fetchAllEndpoints`. -/
def completedEvent (total : Nat) : ProgressStatus :=
  ⟨"", total, total, ProgressState.completed, some "All data has been extracted"⟩

/-- `fetchFromEndpoint` from `amazon-service.ts`.  The body is one big
`try/catch`: a missing credential check throws `'Credentials not set'`
inside the `try`, and the simulated request (whose outcome we expose as
the `simulatedFetch` parameter) may fail; every failure lands in the
`catch`, which builds a failure-flagged record, persists it and returns
it — the function never propagates an exception (it is total here). -/
def fetchFromEndpoint (credentials : Option AmazonCredentials)
    (store : List StoredResponse) (endpoint : ApiEndpoint) (now : Nat)
    (simulatedFetch : Except String String) : ApiResponse × List StoredResponse :=
  match credentials with
  | none =>
    let errorResponse : ApiResponse :=
      { endpointId := endpoint.id, data := none, timestamp := now,
        success := false, error := some "Credentials not set" }
    (errorResponse, saveResponse store errorResponse)
  | some _ =>
    match simulatedFetch with
    | Except.ok d =>
      let response : ApiResponse :=
        { endpointId := endpoint.id, data := some d, timestamp := now,
          success := true, error := none }
      (response, saveResponse store response)
    | Except.error msg =>
      let errorResponse : ApiResponse :=
        { endpointId := endpoint.id, data := none, timestamp := now,
          success := false, error := some msg }
      (errorResponse, saveResponse store errorResponse)

/-- Result of a bulk fetch: the endpoint-id → response mapping it returns,
the final store, and the sequence of progress events it emitted. -/
structure FetchAllResult where
  results : List (String × ApiResponse)
  store : List StoredResponse
  events : List ProgressStatus
deriving DecidableEq

/-- The `for` loop of `fetchAllEndpoints`: one progress event before each
call, then the fetch (which cannot throw), then
`results[endpoint.id] = response`.  The clock advances by one per call. -/
def fetchLoop (credentials : Option AmazonCredentials)
    (sim : String → Except String String) (total : Nat) :
    List ApiEndpoint → Nat → Nat → List StoredResponse →
      List (String × ApiResponse) → FetchAllResult
  | [], _, _, store, results => ⟨results, store, []⟩
  | endpoint :: rest, i, t, store, results =>
    let fr := fetchFromEndpoint credentials store endpoint t (sim endpoint.id)
    let out := fetchLoop credentials sim total rest (i + 1) (t + 1) fr.2
      (recSet results endpoint.id fr.1)
    ⟨out.results, out.store, endpointEvent endpoint.name i total :: out.events⟩

/-- `fetchAllEndpoints` from `amazon-service.ts`: emit the starting event,
loop over the catalog, emit the final completed event, return the
aggregated mapping. -/
def fetchAllEndpoints (credentials : Option AmazonCredentials)
    (endpoints : List ApiEndpoint) (store : List StoredResponse) (t0 : Nat)
    (sim : String → Except String String) : FetchAllResult :=
  let total := endpoints.length
  let out := fetchLoop credentials sim total endpoints 0 t0 store []
  ⟨out.results, out.store, startEvent total :: (out.events ++ [completedEvent total])⟩

/-- `notifyProgressListeners`: every registered listener is invoked with
the current status.  Listeners are identified by reference; we model the
references as natural numbers.  The result is the list of invocations
(listener, delivered status). -/
def notifyProgressListeners (listeners : List Nat) (status : ProgressStatus) :
    List (Nat × ProgressStatus) :=
  listeners.map (fun l => (l, status))

/-- All invocations produced by a sequence of `updateProgress` calls. -/
def deliveries (listeners : List Nat) (events : List ProgressStatus) :
    List (Nat × ProgressStatus) :=
  events.flatMap (fun e => notifyProgressListeners listeners e)

/-- The statuses a particular callback receives out of a list of
invocations. -/
def receivedBy (c : Nat) (invocations : List (Nat × ProgressStatus)) :
    List ProgressStatus :=
  invocations.filterMap (fun p => if p.1 == c then some p.2 else none)

/-- `onProgressUpdate` from `amazon-service.ts`: push the callback onto
the listener list and hand back an unregister function that filters the
callback out (by reference inequality) of whatever the listener list is
when it runs. -/
def onProgressUpdate (listeners : List Nat) (callback : Nat) :
    List Nat × (List Nat → List Nat) :=
  (listeners ++ [callback],
    fun current => current.filter (fun l => !(l == callback)))

theorem fetchLoop_events_length (credentials : Option AmazonCredentials)
    (sim : String → Except String String) (total : Nat)
    (endpoints : List ApiEndpoint) (i t : Nat) (store : List StoredResponse)
    (results : List (String × ApiResponse)) :
    (fetchLoop credentials sim total endpoints i t store results).events.length =
      endpoints.length := by
  induction endpoints generalizing i t store results with
  | nil => simp [fetchLoop]
  | cons ep rest ih => simp [fetchLoop, ih]

theorem recSet_presence {β : Type} (m : List (String × β)) (k k2 : String)
    (v2 : β) (h : ∃ v, recGet m k = some v) :
    ∃ v, recGet (recSet m k2 v2) k = some v := by
  by_cases hk : k = k2
  · subst hk
    exact ⟨v2, recGet_recSet_self m k v2⟩
  · rw [recGet_recSet_ne m k2 k v2 hk]
    exact h

theorem fetchLoop_preserves_key (credentials : Option AmazonCredentials)
    (sim : String → Except String String) (total : Nat)
    (endpoints : List ApiEndpoint) (i t : Nat) (store : List StoredResponse)
    (results : List (String × ApiResponse)) (k : String)
    (h : ∃ v, recGet results k = some v) :
    ∃ v, recGet (fetchLoop credentials sim total endpoints i t store results).results k =
      some v := by
  induction endpoints generalizing i t store results with
  | nil => simpa [fetchLoop] using h
  | cons ep rest ih =>
    simp only [fetchLoop]
    exact ih _ _ _ _ (recSet_presence _ _ _ _ h)

theorem fetchLoop_covers (credentials : Option AmazonCredentials)
    (sim : String → Except String String) (total : Nat)
    (endpoints : List ApiEndpoint) (i t : Nat) (store : List StoredResponse)
    (results : List (String × ApiResponse)) (ep : ApiEndpoint)
    (h : ep ∈ endpoints) :
    ∃ v, recGet (fetchLoop credentials sim total endpoints i t store results).results ep.id =
      some v := by
  induction endpoints generalizing i t store results with
  | nil => simp at h
  | cons ep0 rest ih =>
    rcases List.mem_cons.mp h with h | h
    · subst h
      simp only [fetchLoop]
      exact fetchLoop_preserves_key _ _ _ _ _ _ _ _ _
        ⟨_, recGet_recSet_self _ _ _⟩
    · simp only [fetchLoop]
      exact ih _ _ _ _ h

theorem fetchLoop_results_length (credentials : Option AmazonCredentials)
    (sim : String → Except String String) (total : Nat)
    (endpoints : List ApiEndpoint) (i t : Nat) (store : List StoredResponse)
    (results : List (String × ApiResponse))
    (hids : (endpoints.map ApiEndpoint.id).Nodup)
    (hfresh : ∀ ep ∈ endpoints, recGet results ep.id = none) :
    (fetchLoop credentials sim total endpoints i t store results).results.length =
      results.length + endpoints.length := by
  induction endpoints generalizing i t store results with
  | nil => simp [fetchLoop]
  | cons ep rest ih =>
    simp only [List.map_cons, List.nodup_cons] at hids
    simp only [fetchLoop]
    rw [ih _ _ _ _ hids.2]
    · rw [recSet_length_fresh _ _ _ (hfresh ep (List.mem_cons_self _ _))]
      simp only [List.length_cons]
      omega
    · intro ep2 h2
      have hne : ep2.id ≠ ep.id := by
        intro hc
        exact hids.1 (hc ▸ List.mem_map.mpr ⟨ep2, h2, rfl⟩)
      rw [recGet_recSet_ne _ _ _ _ hne]
      exact hfresh ep2 (List.mem_cons_of_mem _ h2)

theorem receivedBy_notify_not_mem (c : Nat) (listeners : List Nat)
    (st : ProgressStatus) (h : c ∉ listeners) :
    receivedBy c (notifyProgressListeners listeners st) = [] := by
  induction listeners with
  | nil => rfl
  | cons l rest ih =>
    simp only [List.mem_cons, not_or] at h
    have hl : (l == c) = false := beq_eq_false_iff_ne.mpr (fun hc => h.1 hc.symm)
    simp only [receivedBy, notifyProgressListeners, List.map_cons,
      List.filterMap_cons, hl, Bool.false_eq_true, if_neg, ite_false]
    exact ih h.2

theorem receivedBy_notify_once (c : Nat) (listeners : List Nat)
    (st : ProgressStatus) (h : listeners.count c = 1) :
    receivedBy c (notifyProgressListeners listeners st) = [st] := by
  induction listeners with
  | nil => simp at h
  | cons l rest ih =>
    by_cases hl : l = c
    · subst hl
      have hc : rest.count l = 0 := by
        have := List.count_cons l l rest
        simp only [beq_self_eq_true, if_pos] at this
        omega
      have hnm : l ∉ rest := List.count_eq_zero.mp hc
      simp only [receivedBy, notifyProgressListeners, List.map_cons,
        List.filterMap_cons, beq_self_eq_true, if_pos]
      have := receivedBy_notify_not_mem l rest st hnm
      simp only [receivedBy, notifyProgressListeners] at this
      rw [this]
    · have hlc : (l == c) = false := beq_eq_false_iff_ne.mpr hl
      have hcount : rest.count c = 1 := by
        have := List.count_cons c l rest
        simp only [hlc, Bool.false_eq_true, if_neg, ite_false] at this
        omega
      simp only [receivedBy, notifyProgressListeners, List.map_cons,
        List.filterMap_cons, hlc, Bool.false_eq_true, if_neg, ite_false]
      exact ih hcount

theorem receivedBy_deliveries (c : Nat) (listeners : List Nat)
    (events : List ProgressStatus) (h : listeners.count c = 1) :
    receivedBy c (deliveries listeners events) = events := by
  induction events with
  | nil => rfl
  | cons e rest ih =>
    simp only [deliveries, List.flatMap_cons] at ih ⊢
    simp only [receivedBy, List.filterMap_append] at ih ⊢
    rw [ih]
    have := receivedBy_notify_once c listeners e h
    simp only [receivedBy] at this
    rw [this]
    rfl

theorem fetchAll_events_last (credentials : Option AmazonCredentials)
    (endpoints : List ApiEndpoint) (store : List StoredResponse) (t0 : Nat)
    (sim : String → Except String String) :
    (fetchAllEndpoints credentials endpoints store t0 sim).events.getLast? =
      some (completedEvent endpoints.length) := by
  simp only [fetchAllEndpoints]
  rw [← List.cons_append]
  exact List.getLast?_concat _

/-- C7. A fetch with no credentials set (or whose simulated request
fails) does not raise: it returns a failure-flagged record carrying a
descriptive message, persists that record to the store, and —
consequently — a bulk fetch always runs to its final completed event no
matter how the individual fetches fare. -/
theorem C7_fetch_error_becomes_record (store : List StoredResponse)
    (endpoint : ApiEndpoint) (now : Nat) (sim : Except String String) :
    ((fetchFromEndpoint none store endpoint now sim).1.success = false ∧
      (fetchFromEndpoint none store endpoint now sim).1.error =
        some "Credentials not set" ∧
      storedOf (fetchFromEndpoint none store endpoint now sim).1 ∈
        (fetchFromEndpoint none store endpoint now sim).2) ∧
    (∀ (c : AmazonCredentials) (msg : String),
      (fetchFromEndpoint (some c) store endpoint now (Except.error msg)).1.success =
          false ∧
        (fetchFromEndpoint (some c) store endpoint now (Except.error msg)).1.error =
          some msg ∧
        storedOf (fetchFromEndpoint (some c) store endpoint now (Except.error msg)).1 ∈
          (fetchFromEndpoint (some c) store endpoint now (Except.error msg)).2) ∧
    ∀ (credentials : Option AmazonCredentials) (endpoints : List ApiEndpoint)
      (t0 : Nat) (simAll : String → Except String String),
      (fetchAllEndpoints credentials endpoints store t0 simAll).events.getLast? =
        some (completedEvent endpoints.length) := by
  refine ⟨⟨rfl, rfl, ?_⟩, ?_, ?_⟩
  · exact mem_putById_self _ _
  · intro c msg
    exact ⟨rfl, rfl, mem_putById_self _ _⟩
  · intro credentials endpoints t0 simAll
    exact fetchAll_events_last credentials endpoints store t0 simAll

/-- C1 (amended). A bulk fetch over a catalog of `N` endpoints with
distinct ids emits exactly `N + 2` progress events — the initial
"starting" event, one "running" event per endpoint, and the final
"completed" event whose `progress` and `total` both equal `N` — delivers
that exact sequence to every listener registered once, and returns a
mapping with exactly `N` entries, one per endpoint id. -/
theorem C1_bulk_fetch_progress (credentials : Option AmazonCredentials)
    (endpoints : List ApiEndpoint) (store : List StoredResponse) (t0 : Nat)
    (sim : String → Except String String) (listeners : List Nat) (c : Nat)
    (hids : (endpoints.map ApiEndpoint.id).Nodup)
    (hc : listeners.count c = 1) :
    (fetchAllEndpoints credentials endpoints store t0 sim).events.length =
      endpoints.length + 2 ∧
    (fetchAllEndpoints credentials endpoints store t0 sim).events.getLast? =
      some ⟨"", endpoints.length, endpoints.length, ProgressState.completed,
        some "All data has been extracted"⟩ ∧
    (fetchAllEndpoints credentials endpoints store t0 sim).results.length =
      endpoints.length ∧
    (∀ ep ∈ endpoints, ∃ v,
      recGet (fetchAllEndpoints credentials endpoints store t0 sim).results ep.id =
        some v) ∧
    receivedBy c (deliveries listeners
        (fetchAllEndpoints credentials endpoints store t0 sim).events) =
      (fetchAllEndpoints credentials endpoints store t0 sim).events := by
  refine ⟨?_, ?_, ?_, ?_, ?_⟩
  · simp only [fetchAllEndpoints, List.length_cons, List.length_append,
      List.length_singleton, fetchLoop_events_length, List.length_nil]
  · exact fetchAll_events_last credentials endpoints store t0 sim
  · simp only [fetchAllEndpoints]
    rw [fetchLoop_results_length credentials sim endpoints.length endpoints 0 t0
      store [] hids (fun ep _ => rfl)]
    simp
  · intro ep hep
    simp only [fetchAllEndpoints]
    exact fetchLoop_covers credentials sim endpoints.length endpoints 0 t0 store
      [] ep hep
  · exact receivedBy_deliveries c listeners _ hc

/-- Counterexample to C1 as stated: over a catalog with a single
endpoint a bulk fetch emits 3 progress events, not `N + 1 = 2` (the
initial "starting" event is emitted in addition to the per-endpoint and
final ones). -/
theorem C1_counterexample :
    ¬((fetchAllEndpoints (some ⟨"i", "s", "r"⟩) [⟨"a", "A"⟩] [] 0
        (fun _ => Except.ok "d")).events.length =
      ([(⟨"a", "A"⟩ : ApiEndpoint)].length + 1)) := by
  decide

/-- Witness for C1 (amended) at a two-endpoint catalog with one
registered listener. -/
theorem C1_witness :
    (fetchAllEndpoints (some ⟨"i", "s", "r"⟩) [⟨"a", "A"⟩, ⟨"b", "B"⟩] [] 0
        (fun _ => Except.ok "d")).events.length = 2 + 2 ∧
    (fetchAllEndpoints (some ⟨"i", "s", "r"⟩) [⟨"a", "A"⟩, ⟨"b", "B"⟩] [] 0
        (fun _ => Except.ok "d")).events.getLast? =
      some ⟨"", 2, 2, ProgressState.completed, some "All data has been extracted"⟩ ∧
    (fetchAllEndpoints (some ⟨"i", "s", "r"⟩) [⟨"a", "A"⟩, ⟨"b", "B"⟩] [] 0
        (fun _ => Except.ok "d")).results.length = 2 ∧
    (∀ ep ∈ [(⟨"a", "A"⟩ : ApiEndpoint), ⟨"b", "B"⟩], ∃ v,
      recGet (fetchAllEndpoints (some ⟨"i", "s", "r"⟩) [⟨"a", "A"⟩, ⟨"b", "B"⟩] [] 0
        (fun _ => Except.ok "d")).results ep.id = some v) ∧
    receivedBy 7 (deliveries [7]
        (fetchAllEndpoints (some ⟨"i", "s", "r"⟩) [⟨"a", "A"⟩, ⟨"b", "B"⟩] [] 0
          (fun _ => Except.ok "d")).events) =
      (fetchAllEndpoints (some ⟨"i", "s", "r"⟩) [⟨"a", "A"⟩, ⟨"b", "B"⟩] [] 0
        (fun _ => Except.ok "d")).events := by
  have h := C1_bulk_fetch_progress (some ⟨"i", "s", "r"⟩) [⟨"a", "A"⟩, ⟨"b", "B"⟩]
    [] 0 (fun _ => Except.ok "d") [7] 7 (by decide) (by decide)
  simpa using h

/-- C10. The unregister function returned by `onProgressUpdate` filters
by reference inequality over the whole listener list: applied to any
current listener list it removes every registration of the callback —
however many times it was registered — after which the callback receives
no further progress events.  (Registration itself appends the callback.) -/
theorem C10_unregister_removes_all (listeners current : List Nat) (c : Nat)
    (st : ProgressStatus) :
    (onProgressUpdate listeners c).1 = listeners ++ [c] ∧
    ((onProgressUpdate listeners c).2 current).count c = 0 ∧
    receivedBy c (notifyProgressListeners ((onProgressUpdate listeners c).2 current)
      st) = [] := by
  have hnm : c ∉ (onProgressUpdate listeners c).2 current := by
    intro hc
    have := (List.mem_filter.mp hc).2
    simp at this
  exact ⟨rfl, List.count_eq_zero.mpr hnm,
    receivedBy_notify_not_mem c _ st hnm⟩

theorem resolveIds_sound (s : List StoredResponse) (ids : List String)
    (m : List (String × StoredResponse)) (e : String) (r : StoredResponse)
    (h : recGet (resolveIds s ids m) e = some r) :
    recGet m e = some r ∨ (r ∈ s ∧ r.id ∈ ids ∧ r.endpointId = e) := by
  induction ids generalizing m with
  | nil => exact Or.inl h
  | cons rid rest ih =>
    simp only [resolveIds] at h
    cases hf : s.find? (fun x => x.id == rid) with
    | none =>
      rw [hf] at h
      rcases ih _ h with h1 | h1
      · exact Or.inl h1
      · exact Or.inr ⟨h1.1, List.mem_cons_of_mem _ h1.2.1, h1.2.2⟩
    | some response =>
      rw [hf] at h
      rcases ih _ h with h1 | h1
      · by_cases he : e = response.endpointId
        · subst he
          rw [recGet_recSet_self] at h1
          have hr : response = r := Option.some.inj h1
          subst hr
          refine Or.inr ⟨List.mem_of_find?_eq_some hf, ?_, rfl⟩
          have := List.find?_some hf
          simp only [beq_iff_eq] at this
          rw [this]
          exact List.mem_cons_self _ _
        · rw [recGet_recSet_ne _ _ _ _ he] at h1
          exact Or.inl h1
      · exact Or.inr ⟨h1.1, List.mem_cons_of_mem _ h1.2.1, h1.2.2⟩

theorem resolveIds_preserves (s : List StoredResponse) (ids : List String)
    (m : List (String × StoredResponse)) (e : String)
    (h : ∃ v, recGet m e = some v) :
    ∃ v, recGet (resolveIds s ids m) e = some v := by
  induction ids generalizing m with
  | nil => exact h
  | cons rid rest ih =>
    simp only [resolveIds]
    cases hf : s.find? (fun x => x.id == rid) with
    | none => exact ih _ h
    | some response => exact ih _ (recSet_presence _ _ _ _ h)

theorem resolveIds_covers (s : List StoredResponse) (ids : List String)
    (m : List (String × StoredResponse)) (rid : String) (r : StoredResponse)
    (h1 : rid ∈ ids) (h2 : s.find? (fun x => x.id == rid) = some r) :
    ∃ v, recGet (resolveIds s ids m) r.endpointId = some v := by
  induction ids generalizing m with
  | nil => simp at h1
  | cons rid0 rest ih =>
    simp only [resolveIds]
    rcases List.mem_cons.mp h1 with h1 | h1
    · subst h1
      rw [h2]
      exact resolveIds_preserves s rest _ _ ⟨r, recGet_recSet_self _ _ _⟩
    · cases hf : s.find? (fun x => x.id == rid0) with
      | none => exact ih _ h1
      | some response => exact ih _ h1

/-- C8. Resolving a snapshot yields an entry (keyed by `endpointId`)
exactly for those referenced ids that still resolve to a stored record:
every entry comes from a resolving referenced id, every resolving
referenced id produces an entry for its record's endpoint, and a
referenced id that no longer resolves is skipped without any effect or
error (the function is total). -/
theorem C8_snapshot_missing_ids_skipped (s : List StoredResponse)
    (snapshot : HistoricalSnapshot) :
    (∀ e r, recGet (getSnapshotResponses s snapshot) e = some r →
      r.endpointId = e ∧ r ∈ s ∧ r.id ∈ snapshot.responseIds) ∧
    (∀ rid r, rid ∈ snapshot.responseIds →
      s.find? (fun x => x.id == rid) = some r →
      ∃ v, recGet (getSnapshotResponses s snapshot) r.endpointId = some v) ∧
    ∀ (sid : String) (sdate : Nat) (rid : String) (rest : List String),
      s.find? (fun x => x.id == rid) = none →
      getSnapshotResponses s ⟨sid, sdate, rid :: rest⟩ =
        getSnapshotResponses s ⟨sid, sdate, rest⟩ := by
  refine ⟨?_, ?_, ?_⟩
  · intro e r h
    rcases resolveIds_sound s snapshot.responseIds [] e r h with h1 | h1
    · simp [recGet] at h1
    · exact ⟨h1.2.2, h1.1, h1.2.1⟩
  · intro rid r h1 h2
    exact resolveIds_covers s snapshot.responseIds [] rid r h1 h2
  · intro sid sdate rid rest h
    simp [getSnapshotResponses, resolveIds, h]

/-- Witness for C8 at `wStore` with a snapshot referencing one live and
one dangling id. -/
theorem C8_witness :
    ((⟨"orders", some "d2", 5, true, none, "orders-5"⟩ : StoredResponse).endpointId =
        "orders" ∧
      (⟨"orders", some "d2", 5, true, none, "orders-5"⟩ : StoredResponse) ∈ wStore ∧
      "orders-5" ∈ (⟨"snap-9", 9, ["orders-5", "gone"]⟩ :
        HistoricalSnapshot).responseIds) ∧
    (∃ v, recGet (getSnapshotResponses wStore ⟨"snap-9", 9, ["orders-5", "gone"]⟩)
      "orders" = some v) ∧
    getSnapshotResponses wStore ⟨"snap-9", 9, ["gone", "orders-5"]⟩ =
      getSnapshotResponses wStore ⟨"snap-9", 9, ["orders-5"]⟩ := by
  have h := C8_snapshot_missing_ids_skipped wStore ⟨"snap-9", 9, ["orders-5", "gone"]⟩
  refine ⟨?_, ?_, ?_⟩
  · exact h.1 "orders" ⟨"orders", some "d2", 5, true, none, "orders-5"⟩ (by decide)
  · exact h.2.1 "orders-5" ⟨"orders", some "d2", 5, true, none, "orders-5"⟩
      (by decide) (by decide)
  · exact (C8_snapshot_missing_ids_skipped wStore
      ⟨"snap-9", 9, ["gone", "orders-5"]⟩).2.2 "snap-9" 9 "gone" ["orders-5"]
      (by decide)

end DataWizard
